import Mathlib

/-!
Shallow embedding of the result-fusion and re-ranking layer of `utils.py`
(`search_hybrid_fusion`, `mmr_rerank`, `exact_topk`, `calculate_recall_at_k`).

Python floats are modelled as rationals (`ℚ`); machine ids as `Nat`
(Qdrant point ids are nonnegative integers).  The floating-point square
root inside `np.linalg.norm` is modelled by a rational square root that is
exact on perfect squares; every concrete input used below has a
perfect-square squared norm, and the universally quantified theorems do
not depend on the precision of the square root.
-/

namespace DsDojo

/-- A search result (the shape of a Qdrant `ScoredPoint` that the fusion /
re-ranking code reads and writes): id, score, payload (opaque here) and
optional vector. -/
structure Candidate where
  id : Nat
  score : ℚ
  payload : String
  vector : List ℚ
deriving Repr, DecidableEq

/-- Dot product of two vectors, `np.dot` on equal-length 1-d arrays. -/
def dot (u v : List ℚ) : ℚ :=
  (List.zipWith (· * ·) u v).sum

/-- Floor square root of a natural number, by bounded search (a computable
stand-in for the floating-point `sqrt`; exact on perfect squares). -/
def isqrt (n : Nat) : Nat :=
  ((List.range (n + 1)).filter (fun m => m * m ≤ n)).getLastD 0

/-- Rational square root, exact on perfect squares: `sqrt (a/b) = sqrt (a*b) / b`.
Models the floating-point `sqrt` inside `np.linalg.norm`. -/
def ratSqrt (q : ℚ) : ℚ :=
  (isqrt (q.num.toNat * q.den) : ℚ) / (q.den : ℚ)

/-- `np.linalg.norm v` : the L2 norm of a vector. -/
def l2norm (v : List ℚ) : ℚ :=
  ratSqrt ((v.map (fun x => x * x)).sum)

/-- `v / np.linalg.norm(v)` — unit normalization.  The division is NOT
guarded: on a zero-norm vector the code divides by zero (NumPy produces
NaN without raising; in `ℚ` division by zero yields 0 — either way no
error is raised). -/
def normalize (v : List ℚ) : List ℚ :=
  v.map (fun x => x / l2norm v)

/-! ### Fusion engine: the pure post-processing core of `search_hybrid_fusion`
(`utils.py` lines 305-331), taking the two already-fetched result lists. -/

/-- Look up the LAST element of `results` carrying the given id — Python
dict-comprehension semantics (`{r.id: r for r in results}`): a later
duplicate id overwrites an earlier one. -/
def lookupLast (results : List Candidate) (i : Nat) : Option Candidate :=
  match results with
  | [] => none
  | r :: rs =>
    match lookupLast rs i with
    | some x => some x
    | none => if r.id = i then some r else none

/-- `dense_scores = {r.id: r.score for r in dense_results}` viewed as the
lookup it is used for. -/
def scoreTable (results : List Candidate) (i : Nat) : Option ℚ :=
  (lookupLast results i).map (·.score)

/-- The distinct elements of a list (each element kept once) — the carrier
of a Python `set` built from the list. -/
def distinct {α : Type} [DecidableEq α] : List α → List α
  | [] => []
  | x :: xs => if x ∈ distinct xs then distinct xs else x :: distinct xs

/-- `all_ids = set(dense_scores.keys()) | set(sparse_scores.keys())`.
CPython iterates a set of small nonnegative ints in increasing order
(`hash n = n`, open addressing in slot order), so the union is modelled as
the increasing list of the distinct ids. -/
def allIds (dense sparse : List Candidate) : List Nat :=
  (distinct (dense.map (·.id) ++ sparse.map (·.id))).insertionSort (· ≤ ·)

/-- `fused_scores[id] = dense_weight * dense_scores.get(id, 0) + (1 - dense_weight) * sparse_scores.get(id, 0)`. -/
def fusedScore (dense sparse : List Candidate) (w : ℚ) (i : Nat) : ℚ :=
  w * (scoreTable dense i).getD 0 + (1 - w) * (scoreTable sparse i).getD 0

/-- `sorted(fused_scores.keys(), key=lambda x: fused_scores[x], reverse=True)[:final_limit]`.
Python's sort is stable and `reverse=True` keeps equal keys in iteration
order, which an insertion sort on `score a ≥ score b` reproduces. -/
def sortedIds (dense sparse : List Candidate) (w : ℚ) (final_limit : Nat) : List Nat :=
  ((allIds dense sparse).insertionSort
    (fun a b => fusedScore dense sparse w b ≤ fusedScore dense sparse w a)).take final_limit

/-- `result_map = {r.id: r for r in (dense_results + sparse_results)}` —
again last write wins on duplicate ids, so an id occurring in both lists is
resolved to its LAST occurrence, which lies in `sparse_results`. -/
def resultMap (dense sparse : List Candidate) (i : Nat) : Option Candidate :=
  lookupLast (dense ++ sparse) i

/-- The fusion loop: for each surviving id, look it up in `result_map`
(skipping it if absent), overwrite the score with the fused score, and
collect the results in sorted-id order. -/
def search_hybrid_fusion (dense sparse : List Candidate) (dense_weight : ℚ)
    (final_limit : Nat) : List Candidate :=
  (sortedIds dense sparse dense_weight final_limit).filterMap (fun i =>
    (resultMap dense sparse i).map
      (fun r => { r with score := fusedScore dense sparse dense_weight i }))

/-! ### MMR re-ranking (`mmr_rerank`, `utils.py` lines 334-381). -/

/-- Helper for `np.argmax`: scan with the best index and value so far,
updating only on a STRICT increase, so the first maximal element wins. -/
def argmaxAux (best : Nat) (bestVal : ℚ) (i : Nat) : List ℚ → Nat
  | [] => best
  | x :: xs =>
    if bestVal < x then argmaxAux i x (i + 1) xs else argmaxAux best bestVal (i + 1) xs

/-- `np.argmax`: index of the first maximal element (0 on the empty list,
where NumPy raises instead). -/
def argmax : List ℚ → Nat
  | [] => 0
  | x :: xs => argmaxAux 0 x 1 xs

/-- `list.remove(x)` on a Python list: drop the first occurrence. -/
def removeFirst : List Nat → Nat → List Nat
  | [], _ => []
  | y :: ys, x => if y = x then ys else y :: removeFirst ys x

/-- The inner `max_sim` loop of `mmr_rerank`: `max_sim = 0`, then
`max_sim = max(max_sim, np.dot(candidates_norm[idx], candidates_norm[sel_idx]))`
over the already-selected indices.  Note the initialization at 0. -/
def maxSim (norms : List (List ℚ)) (selected : List Nat) (i : Nat) : ℚ :=
  selected.foldl (fun m j => max m (dot (norms.getD i []) (norms.getD j []))) 0

/-- Modelled from the spec: `max_sim(i) = max over already-selected j of
dot(candidate_i, candidate_j)` — the plain maximum of the dot products with
no clamping (0 when nothing is selected).  Present only to be compared
against the code's `maxSim`. -/
def maxSimSpec (norms : List (List ℚ)) (selected : List Nat) (i : Nat) : ℚ :=
  match selected.map (fun j => dot (norms.getD i []) (norms.getD j [])) with
  | [] => 0
  | x :: xs => xs.foldl max x

/-- `max(mmr_scores, key=lambda x: x[1])`: the first pair with maximal
second component (Python's `max` keeps the earlier element on ties). -/
def maxBySnd : List (Nat × ℚ) → Option (Nat × ℚ)
  | [] => none
  | p :: ps => some (ps.foldl (fun b x => if b.2 < x.2 then x else b) p)

/-- The `for _ in range(min(k - 1, len(remaining_indices)))` selection loop
of `mmr_rerank`, iterated `fuel` times: score every remaining candidate by
`lambda_param * relevance - (1 - lambda_param) * max_sim`, move the best
one from `remaining` to `selected`. -/
def mmrSelect (norms : List (List ℚ)) (rel : List ℚ) (lam : ℚ) :
    List Nat → List Nat → Nat → List Nat
  | selected, _, 0 => selected
  | selected, remaining, fuel + 1 =>
    match maxBySnd (remaining.map (fun idx =>
        (idx, lam * rel.getD idx 0 - (1 - lam) * maxSim norms selected idx))) with
    | none => selected
    | some best =>
      mmrSelect norms rel lam (selected ++ [best.1]) (removeFirst remaining best.1) fuel

/-- The list of selected indices computed by `mmr_rerank` on a non-empty
candidate list: normalize, compute relevance scores, seed the selection
with `np.argmax(relevance_scores)`, then run the MMR loop. -/
def mmrIndices (query_vector : List ℚ) (candidate_vectors : List (List ℚ))
    (n : Nat) (lambda_param : ℚ) (k : ℤ) : List Nat :=
  let query_norm := normalize query_vector
  let candidates_norm := candidate_vectors.map normalize
  let relevance_scores := candidates_norm.map (fun v => dot v query_norm)
  let first_idx := argmax relevance_scores
  let remaining := removeFirst (List.range n) first_idx
  mmrSelect candidates_norm relevance_scores lambda_param [first_idx] remaining
    (min (k - 1) (remaining.length : ℤ)).toNat

/-- List indexing `lst[i]`, as used by the final comprehension
`[candidate_results[i] for i in selected_indices]` (in Python an
out-of-range index raises; here it yields `none` and is skipped — the
selected indices are proved to be in range below). -/
def nth : List Candidate → Nat → Option Candidate
  | [], _ => none
  | c :: _, 0 => some c
  | _ :: cs, i + 1 => nth cs i

/-- `mmr_rerank` (`utils.py` 334-381): `[]` on an empty candidate list,
otherwise the candidates at the selected indices, in selection order. -/
def mmr_rerank (query_vector : List ℚ) (candidate_vectors : List (List ℚ))
    (candidate_results : List Candidate) (lambda_param : ℚ) (k : ℤ) : List Candidate :=
  if candidate_results.length = 0 then []
  else
    (mmrIndices query_vector candidate_vectors candidate_results.length lambda_param k).filterMap
      (fun i => nth candidate_results i)

/-! ### Exact top-k baseline (`exact_topk`, `utils.py` lines 384-401). -/

/-- `np.argsort`: the indices `0 .. n-1` ordered by ascending value.
NumPy's default sort leaves the relative order of equal values
unspecified; it is modelled as a stable ascending sort (equal values keep
index order), which matches what NumPy produces on the small inputs used
here. -/
def argsort (l : List ℚ) : List Nat :=
  (List.range l.length).insertionSort (fun i j => l.getD i 0 ≤ l.getD j 0)

/-- `exact_topk`: brute-force cosine similarity, `np.argsort(...)[::-1][:k]`,
paired with the scores. -/
def exact_topk (query_vector : List ℚ) (all_vectors : List (List ℚ)) (k : Nat) :
    List (Nat × ℚ) :=
  let query_norm := normalize query_vector
  let all_norm := all_vectors.map normalize
  let similarities := all_norm.map (fun v => dot v query_norm)
  ((argsort similarities).reverse.take k).map (fun i => (i, similarities.getD i 0))

/-! ### Recall (`calculate_recall_at_k`, `utils.py` lines 423-432). -/

/-- Python list slicing `l[:k]` for an arbitrary `int` k: the first `k`
elements when `k ≥ 0`, everything but the last `|k|` elements when `k < 0`. -/
def pySlice (l : List ℤ) (k : ℤ) : List ℤ :=
  if 0 ≤ k then l.take k.toNat else l.take (l.length - (-k).toNat)

/-- `len(set(a) & set(b))` with `a` already deduplicated: count the
elements of `a` lying in `b`. -/
def interCount : List ℤ → List ℤ → Nat
  | [], _ => 0
  | x :: xs, b => (if x ∈ b then 1 else 0) + interCount xs b

/-- `calculate_recall_at_k`: `len(set(predicted[:k]) & set(ground_truth[:k])) / len(set(ground_truth[:k]))`,
guarded only by `len(truth_set) == 0`. -/
def calculate_recall_at_k (predicted ground_truth : List ℤ) (k : ℤ) : ℚ :=
  let pred_set := distinct (pySlice predicted k)
  let truth_set := distinct (pySlice ground_truth k)
  if truth_set.length = 0 then 0
  else (interCount pred_set truth_set : ℚ) / (truth_set.length : ℚ)

/-! ### Helper lemmas: lookups, distinct, allIds -/

theorem lookupLast_eq_some {results : List Candidate} {i : Nat} {r : Candidate} :
    lookupLast results i = some r → r ∈ results ∧ r.id = i := by
  induction results with
  | nil => intro h; simp [lookupLast] at h
  | cons c cs ih =>
    intro h
    cases hcs : lookupLast cs i with
    | some x =>
      simp only [lookupLast, hcs] at h
      injection h with h
      subst h
      exact ⟨List.mem_cons_of_mem _ (ih hcs).1, (ih hcs).2⟩
    | none =>
      simp only [lookupLast, hcs] at h
      by_cases hid : c.id = i
      · rw [if_pos hid] at h
        injection h with h
        subst h
        exact ⟨List.mem_cons_self _ _, hid⟩
      · rw [if_neg hid] at h
        cases h

theorem lookupLast_isSome {results : List Candidate} {i : Nat}
    (h : i ∈ results.map (·.id)) : ∃ r, lookupLast results i = some r := by
  induction results with
  | nil => simp at h
  | cons c cs ih =>
    rw [List.map_cons, List.mem_cons] at h
    cases hcs : lookupLast cs i with
    | some x => exact ⟨x, by simp [lookupLast, hcs]⟩
    | none =>
      rcases h with h | h
      · subst h
        exact ⟨c, by simp [lookupLast, hcs]⟩
      · rcases ih h with ⟨r, hr⟩
        rw [hr] at hcs
        cases hcs

theorem lookupLast_append {a b : List Candidate} {i : Nat} {r : Candidate}
    (h : lookupLast b i = some r) : lookupLast (a ++ b) i = some r := by
  induction a with
  | nil => simpa using h
  | cons c cs ih => simp [lookupLast, ih]

theorem mem_distinct {α : Type} [DecidableEq α] : ∀ (l : List α) (a : α),
    a ∈ distinct l ↔ a ∈ l
  | [], a => by simp [distinct]
  | x :: xs, a => by
    by_cases hx : x ∈ distinct xs
    · rw [distinct, if_pos hx, mem_distinct xs a, List.mem_cons]
      have hxs := (mem_distinct xs x).mp hx
      constructor
      · exact Or.inr
      · rintro (rfl | h)
        exacts [hxs, h]
    · rw [distinct, if_neg hx, List.mem_cons, List.mem_cons, mem_distinct xs a]

theorem nodup_distinct {α : Type} [DecidableEq α] : ∀ (l : List α), (distinct l).Nodup
  | [] => by simp [distinct]
  | x :: xs => by
    by_cases hx : x ∈ distinct xs
    · rw [distinct, if_pos hx]
      exact nodup_distinct xs
    · rw [distinct, if_neg hx]
      exact List.nodup_cons.mpr ⟨hx, nodup_distinct xs⟩

theorem mem_allIds {dense sparse : List Candidate} {i : Nat} :
    i ∈ allIds dense sparse ↔ i ∈ dense.map (·.id) ∨ i ∈ sparse.map (·.id) := by
  rw [allIds, List.mem_insertionSort, mem_distinct, List.mem_append]

theorem resultMap_eq_some_of_mem {dense sparse : List Candidate} {i : Nat}
    (h : i ∈ allIds dense sparse) :
    ∃ r, resultMap dense sparse i = some r ∧ r ∈ dense ++ sparse ∧ r.id = i := by
  have hm : i ∈ (dense ++ sparse).map (·.id) := by
    rw [List.map_append, List.mem_append]
    exact mem_allIds.mp h
  obtain ⟨r, hr⟩ := lookupLast_isSome hm
  exact ⟨r, hr, (lookupLast_eq_some hr).1, (lookupLast_eq_some hr).2⟩

theorem mem_fusion_iff {dense sparse : List Candidate} {w : ℚ} {fl : Nat} {r : Candidate} :
    r ∈ search_hybrid_fusion dense sparse w fl ↔
      ∃ i ∈ sortedIds dense sparse w fl, ∃ c, resultMap dense sparse i = some c ∧
        r = { c with score := fusedScore dense sparse w i } := by
  rw [search_hybrid_fusion, List.mem_filterMap]
  constructor
  · rintro ⟨i, hi, hopt⟩
    rcases Option.map_eq_some'.mp hopt with ⟨c, hc, hr⟩
    exact ⟨i, hi, c, hc, hr.symm⟩
  · rintro ⟨i, hi, c, hc, rfl⟩
    exact ⟨i, hi, by rw [hc]; rfl⟩

theorem length_filterMap_of_isSome {α β : Type} (f : α → Option β) :
    ∀ (l : List α), (∀ a ∈ l, (f a).isSome) → (l.filterMap f).length = l.length
  | [], _ => rfl
  | a :: as, h => by
    rw [List.filterMap_cons]
    cases hfa : f a with
    | none =>
      have := h a (List.mem_cons_self a as)
      rw [hfa] at this
      cases this
    | some b =>
      simp only [List.length_cons, length_filterMap_of_isSome f as
        (fun x hx => h x (List.mem_cons_of_mem _ hx))]

theorem mem_sortedIds_subset {dense sparse : List Candidate} {w : ℚ} {fl : Nat} {i : Nat}
    (h : i ∈ sortedIds dense sparse w fl) : i ∈ allIds dense sparse := by
  rw [sortedIds] at h
  exact (List.mem_insertionSort _).mp (List.mem_of_mem_take h)

/-! ### Claim theorems: fusion -/

/-- C1: for every id X in the union of the dense and sparse ids, X enters
the fused id set; every result the fusion operation returns carries the
score `dense_weight * dense_score(X) + (1 - dense_weight) * sparse_score(X)`
with an absent score read as 0; and (when the final limit does not truncate)
every id of the union — including ids present on only one side — appears in
the output. -/
theorem fusion_score_formula (dense sparse : List Candidate) (w : ℚ) (fl : Nat) (i : Nat)
    (hi : i ∈ dense.map (·.id) ∨ i ∈ sparse.map (·.id)) :
    i ∈ allIds dense sparse ∧
    (∀ r ∈ search_hybrid_fusion dense sparse w fl,
      r.score = w * ((scoreTable dense r.id).getD 0)
        + (1 - w) * ((scoreTable sparse r.id).getD 0)) ∧
    ((allIds dense sparse).length ≤ fl →
      i ∈ (search_hybrid_fusion dense sparse w fl).map (·.id)) := by
  refine ⟨mem_allIds.mpr hi, ?_, ?_⟩
  · intro r hr
    obtain ⟨j, hj, c, hc, rfl⟩ := mem_fusion_iff.mp hr
    have hcid : c.id = j := (lookupLast_eq_some hc).2
    simp [fusedScore, hcid]
  · intro hlen
    have hsorted : sortedIds dense sparse w fl = (allIds dense sparse).insertionSort
        (fun a b => fusedScore dense sparse w b ≤ fusedScore dense sparse w a) := by
      rw [sortedIds]
      exact List.take_of_length_le (by rw [List.length_insertionSort]; exact hlen)
    have hmem : i ∈ sortedIds dense sparse w fl := by
      rw [hsorted]
      exact (List.mem_insertionSort _).mpr (mem_allIds.mpr hi)
    obtain ⟨c, hc, _, hcid⟩ := resultMap_eq_some_of_mem (mem_allIds.mpr hi)
    refine List.mem_map.mpr ⟨{ c with score := fusedScore dense sparse w i }, ?_, hcid⟩
    exact mem_fusion_iff.mpr ⟨i, hmem, c, hc, rfl⟩

/-- Witness for `fusion_score_formula` at a sparse-only id. -/
theorem fusion_score_formula_witness :
    ((2:Nat) ∈ ([⟨1, 9/10, "d", []⟩] : List Candidate).map (·.id) ∨
      (2:Nat) ∈ ([⟨2, 4/5, "s", []⟩] : List Candidate).map (·.id)) ∧
    ((2:Nat) ∈ allIds [⟨1, 9/10, "d", []⟩] [⟨2, 4/5, "s", []⟩] ∧
      (∀ r ∈ search_hybrid_fusion [⟨1, 9/10, "d", []⟩] [⟨2, 4/5, "s", []⟩] (1/2) 10,
        r.score = 1/2 * ((scoreTable [⟨1, 9/10, "d", []⟩] r.id).getD 0)
          + (1 - 1/2) * ((scoreTable [⟨2, 4/5, "s", []⟩] r.id).getD 0)) ∧
      ((allIds [⟨1, 9/10, "d", []⟩] [⟨2, 4/5, "s", []⟩]).length ≤ 10 →
        (2:Nat) ∈ (search_hybrid_fusion [⟨1, 9/10, "d", []⟩] [⟨2, 4/5, "s", []⟩]
          (1/2) 10).map (·.id))) :=
  ⟨Or.inr (by simp), fusion_score_formula _ _ _ _ _ (Or.inr (by simp))⟩

/-- C4 counterexample: when id 1 appears in both sources, the returned
candidate carries the SPARSE payload, not the dense one — in the Python
dict built from `dense_results + sparse_results` the later (sparse) entry
overwrites the dense one. -/
theorem fusion_metadata_not_dense :
    (search_hybrid_fusion [⟨1, 1, "dense-meta", []⟩] [⟨1, 1/2, "sparse-meta", []⟩]
      (1/2) 10).map (·.payload) = ["sparse-meta"] ∧ "sparse-meta" ≠ "dense-meta" := by
  constructor
  · norm_num [search_hybrid_fusion, sortedIds, allIds, fusedScore, scoreTable, resultMap,
      lookupLast, distinct, List.insertionSort, List.orderedInsert, List.filterMap]
  · decide

/-- C4 amended: on an id collision the fused result carries the metadata of
the last-written source — the SPARSE candidate (the combined map is built
from dense results first, then sparse results, and later writes win) — and
only the score field is replaced by the fused score. -/
theorem fusion_metadata_sparse_wins (dense sparse : List Candidate) (w : ℚ) (fl : Nat)
    (r : Candidate) (hr : r ∈ search_hybrid_fusion dense sparse w fl)
    (hs : r.id ∈ sparse.map (·.id)) :
    ∃ s ∈ sparse, s.id = r.id ∧ r = { s with score := fusedScore dense sparse w r.id } := by
  obtain ⟨i, hi, c, hc, rfl⟩ := mem_fusion_iff.mp hr
  have hcid : c.id = i := (lookupLast_eq_some hc).2
  simp only [] at hs
  have hs' : c.id ∈ sparse.map (·.id) := hs
  obtain ⟨s, hsome⟩ := lookupLast_isSome (hcid ▸ hs' : i ∈ sparse.map (·.id))
  have hres : resultMap dense sparse i = some s := lookupLast_append hsome
  rw [hc] at hres
  injection hres with hres
  subst hres
  refine ⟨c, (lookupLast_eq_some hsome).1, ?_, ?_⟩
  · simp [hcid]
  · simp [hcid]

/-- Witness for `fusion_metadata_sparse_wins` on a concrete collision. -/
theorem fusion_metadata_sparse_wins_witness :
    ((⟨1, 3/4, "sparse-meta", []⟩ : Candidate) ∈
        search_hybrid_fusion [⟨1, 1, "dense-meta", []⟩] [⟨1, 1/2, "sparse-meta", []⟩] (1/2) 10) ∧
    (∃ s ∈ ([⟨1, 1/2, "sparse-meta", []⟩] : List Candidate), s.id = 1 ∧
      (⟨1, 3/4, "sparse-meta", []⟩ : Candidate) =
        ⟨s.id, fusedScore [⟨1, 1, "dense-meta", []⟩] [⟨1, 1/2, "sparse-meta", []⟩] (1/2) 1,
          s.payload, s.vector⟩) := by
  have hr : (⟨1, 3/4, "sparse-meta", []⟩ : Candidate) ∈
      search_hybrid_fusion [⟨1, 1, "dense-meta", []⟩] [⟨1, 1/2, "sparse-meta", []⟩] (1/2) 10 := by
    have : search_hybrid_fusion [⟨1, 1, "dense-meta", []⟩] [⟨1, 1/2, "sparse-meta", []⟩] (1/2) 10
        = [⟨1, 3/4, "sparse-meta", []⟩] := by
      norm_num [search_hybrid_fusion, sortedIds, allIds, fusedScore, scoreTable, resultMap,
        lookupLast, distinct, List.insertionSort, List.orderedInsert, List.filterMap]
    rw [this]
    exact List.mem_cons_self _ _
  exact ⟨hr, fusion_metadata_sparse_wins _ _ _ _ _ hr (by simp)⟩

/-- C7 counterexample: `dense_weight = 2` lies outside `[0,1]`, yet the
fusion operation performs no validation and returns a normal result (score
`2 * 1 + (1 - 2) * 0 = 2`) instead of failing with InvalidArgument. -/
theorem fusion_out_of_range_weight_accepted :
    search_hybrid_fusion [⟨1, 1, "d", []⟩] [] 2 10 = [⟨1, 2, "d", []⟩] := by
  norm_num [search_hybrid_fusion, sortedIds, allIds, fusedScore, scoreTable, resultMap,
    lookupLast, distinct, List.insertionSort, List.orderedInsert, List.filterMap]

/-- C7 amended: the fusion operation accepts EVERY `dense_weight` without
validation — for any weight it returns a full, well-formed ranking of
`min final_limit |ids|` results — and on two empty inputs it returns the
empty sequence (not an error). -/
theorem fusion_no_weight_validation (dense sparse : List Candidate) (w : ℚ) (fl : Nat) :
    search_hybrid_fusion [] [] w fl = [] ∧
    (search_hybrid_fusion dense sparse w fl).length = min fl (allIds dense sparse).length := by
  constructor
  · simp [search_hybrid_fusion, sortedIds, allIds, distinct, List.insertionSort]
  · rw [search_hybrid_fusion, length_filterMap_of_isSome, sortedIds,
      List.length_take, List.length_insertionSort]
    intro i hi
    obtain ⟨c, hc, -, -⟩ := resultMap_eq_some_of_mem (mem_sortedIds_subset hi)
    rw [hc]
    rfl

/-- C8: with two candidates of EQUAL fused score (dense gives id 2 score
1/2, sparse gives id 1 score 1/2, weight 1/2, both fuse to 1/4), the code
orders the tie by the id set's iteration order — ascending ids `[1, 2]` —
not by the deterministic dense-rank-then-sparse-rank-then-id key the spec
mandates, which would put the dense id first: `[2, 1]`. -/
theorem fusion_tie_order_set_iteration :
    (search_hybrid_fusion [⟨2, 1/2, "d", []⟩] [⟨1, 1/2, "s", []⟩] (1/2) 10).map (·.id)
      = [1, 2] ∧ ([1, 2] : List Nat) ≠ [2, 1] := by
  constructor
  · norm_num [search_hybrid_fusion, sortedIds, allIds, fusedScore, scoreTable, resultMap,
      lookupLast, distinct, List.insertionSort, List.orderedInsert, List.filterMap]
  · decide

/-! ### Helper lemmas: MMR -/

theorem argmaxAux_lt : ∀ (xs : List ℚ) (best : Nat) (bestVal : ℚ) (i : Nat),
    best < i → argmaxAux best bestVal i xs < i + xs.length
  | [], best, bestVal, i, h => by simpa [argmaxAux] using h
  | x :: xs, best, bestVal, i, h => by
    simp only [argmaxAux, List.length_cons]
    split_ifs with hlt
    · have h2 := argmaxAux_lt xs i x (i + 1) (Nat.lt_succ_self i)
      omega
    · have h2 := argmaxAux_lt xs best bestVal (i + 1) (Nat.lt_succ_of_lt h)
      omega

theorem argmax_lt : ∀ {l : List ℚ}, l ≠ [] → argmax l < l.length
  | [], h => absurd rfl h
  | x :: xs, _ => by
    simp only [argmax, List.length_cons]
    have h2 := argmaxAux_lt xs 0 x 1 Nat.one_pos
    omega

theorem mem_of_mem_removeFirst : ∀ {l : List Nat} {a x : Nat}, x ∈ removeFirst l a → x ∈ l
  | [], a, x, h => by simp [removeFirst] at h
  | y :: ys, a, x, h => by
    simp only [removeFirst] at h
    split_ifs at h with hy
    · exact List.mem_cons_of_mem _ h
    · rcases List.mem_cons.mp h with rfl | h2
      · exact List.mem_cons_self _ _
      · exact List.mem_cons_of_mem _ (mem_of_mem_removeFirst h2)

theorem length_removeFirst : ∀ {l : List Nat} {a : Nat}, a ∈ l →
    (removeFirst l a).length + 1 = l.length
  | y :: ys, a, h => by
    by_cases hy : y = a
    · simp [removeFirst, hy]
    · have ha : a ∈ ys := by
        rcases List.mem_cons.mp h with rfl | h2
        · exact absurd rfl hy
        · exact h2
      have h2 := length_removeFirst ha
      simp only [removeFirst, if_neg hy, List.length_cons]
      omega

theorem nodup_removeFirst : ∀ {l : List Nat} (a : Nat), l.Nodup → (removeFirst l a).Nodup
  | [], a, _ => by simp [removeFirst]
  | y :: ys, a, h => by
    rcases List.nodup_cons.mp h with ⟨hy, hys⟩
    by_cases hya : y = a
    · simpa [removeFirst, hya] using hys
    · simp only [removeFirst, if_neg hya]
      exact List.nodup_cons.mpr ⟨fun hm => hy (mem_of_mem_removeFirst hm), nodup_removeFirst a hys⟩

theorem not_mem_removeFirst_self : ∀ {l : List Nat} {a : Nat}, l.Nodup → a ∉ removeFirst l a
  | [], a, _ => by simp [removeFirst]
  | y :: ys, a, h => by
    rcases List.nodup_cons.mp h with ⟨hy, hys⟩
    by_cases hya : y = a
    · subst hya
      simp only [removeFirst, if_pos rfl]
      exact hy
    · simp only [removeFirst, if_neg hya]
      intro hm
      rcases List.mem_cons.mp hm with rfl | hm2
      · exact hya rfl
      · exact not_mem_removeFirst_self hys hm2

theorem foldl_maxBySnd_mem : ∀ (ps : List (Nat × ℚ)) (p : Nat × ℚ),
    ps.foldl (fun b x => if b.2 < x.2 then x else b) p ∈ p :: ps
  | [], p => List.mem_cons_self _ _
  | q :: ps, p => by
    rw [List.foldl_cons]
    have h := foldl_maxBySnd_mem ps (if p.2 < q.2 then q else p)
    rw [List.mem_cons] at h
    rcases h with h | h
    · rw [h]
      split_ifs with hpq
      · exact List.mem_cons_of_mem _ (List.mem_cons_self _ _)
      · exact List.mem_cons_self _ _
    · exact List.mem_cons_of_mem _ (List.mem_cons_of_mem _ h)

theorem foldl_maxBySnd_le : ∀ (ps : List (Nat × ℚ)) (p : Nat × ℚ) (x : Nat × ℚ),
    x ∈ p :: ps → x.2 ≤ (ps.foldl (fun b y => if b.2 < y.2 then y else b) p).2
  | [], p, x, hx => by
    rcases List.mem_cons.mp hx with rfl | h
    · exact le_refl _
    · simp at h
  | q :: ps, p, x, hx => by
    rw [List.foldl_cons]
    have hstep : ∀ z ∈ ([p, q] : List (Nat × ℚ)), z.2 ≤ (if p.2 < q.2 then q else p).2 := by
      intro z hz
      rcases List.mem_cons.mp hz with rfl | hz2
      · split_ifs with hpq
        · exact le_of_lt hpq
        · exact le_refl _
      · simp only [List.mem_singleton] at hz2
        subst hz2
        split_ifs with hpq
        · exact le_refl _
        · exact le_of_not_lt hpq
    have hhead := foldl_maxBySnd_le ps (if p.2 < q.2 then q else p)
        (if p.2 < q.2 then q else p) (List.mem_cons_self _ _)
    rcases List.mem_cons.mp hx with rfl | hx2
    · exact le_trans (hstep x (List.mem_cons_self _ _)) hhead
    · rcases List.mem_cons.mp hx2 with rfl | hx3
      · exact le_trans (hstep x (List.mem_cons_of_mem _ (List.mem_cons_self _ _))) hhead
      · exact foldl_maxBySnd_le ps _ x (List.mem_cons_of_mem _ hx3)

theorem maxBySnd_spec {l : List (Nat × ℚ)} (h : l ≠ []) :
    ∃ b, maxBySnd l = some b ∧ b ∈ l ∧ ∀ x ∈ l, x.2 ≤ b.2 := by
  cases l with
  | nil => exact absurd rfl h
  | cons p ps =>
    exact ⟨_, rfl, foldl_maxBySnd_mem ps p, fun x hx => foldl_maxBySnd_le ps p x hx⟩

theorem mmrSelect_succ (norms : List (List ℚ)) (rel : List ℚ) (lam : ℚ)
    (sel rem : List Nat) (fuel : Nat) (h : rem ≠ []) :
    ∃ b ∈ rem,
      (∀ j ∈ rem, lam * rel.getD j 0 - (1 - lam) * maxSim norms sel j
        ≤ lam * rel.getD b 0 - (1 - lam) * maxSim norms sel b) ∧
      mmrSelect norms rel lam sel rem (fuel + 1)
        = mmrSelect norms rel lam (sel ++ [b]) (removeFirst rem b) fuel := by
  have hmap : rem.map
      (fun idx => (idx, lam * rel.getD idx 0 - (1 - lam) * maxSim norms sel idx)) ≠ [] := by
    simpa using h
  obtain ⟨b, hb, hmem, hle⟩ := maxBySnd_spec hmap
  obtain ⟨idx, hidx, hidxeq⟩ := List.mem_map.mp hmem
  refine ⟨idx, hidx, ?_, ?_⟩
  · intro j hj
    have h2 := hle (j, lam * rel.getD j 0 - (1 - lam) * maxSim norms sel j)
      (List.mem_map.mpr ⟨j, hj, rfl⟩)
    rw [← hidxeq] at h2
    exact h2
  · simp only [mmrSelect, hb, ← hidxeq]

theorem mmrSelect_length : ∀ (fuel : Nat) (norms : List (List ℚ)) (rel : List ℚ) (lam : ℚ)
    (sel rem : List Nat), fuel ≤ rem.length →
    (mmrSelect norms rel lam sel rem fuel).length = sel.length + fuel
  | 0, _, _, _, _, _, _ => by simp [mmrSelect]
  | fuel + 1, norms, rel, lam, sel, rem, h => by
    have hne : rem ≠ [] := by
      intro he
      rw [he] at h
      simp at h
    obtain ⟨b, hb, -, heq⟩ := mmrSelect_succ norms rel lam sel rem fuel hne
    have hlen : fuel ≤ (removeFirst rem b).length := by
      have h2 := length_removeFirst hb
      omega
    rw [heq, mmrSelect_length fuel norms rel lam (sel ++ [b]) (removeFirst rem b) hlen,
      List.length_append]
    simp only [List.length_singleton]
    omega

theorem mmrSelect_mem : ∀ (fuel : Nat) (norms : List (List ℚ)) (rel : List ℚ) (lam : ℚ)
    (sel rem : List Nat) (x : Nat),
    x ∈ mmrSelect norms rel lam sel rem fuel → x ∈ sel ∨ x ∈ rem
  | 0, _, _, _, sel, rem, x, hx => Or.inl (by simpa [mmrSelect] using hx)
  | fuel + 1, norms, rel, lam, sel, rem, x, hx => by
    by_cases hne : rem = []
    · subst hne
      simp only [mmrSelect, List.map_nil, maxBySnd] at hx
      exact Or.inl hx
    · obtain ⟨b, hb, -, heq⟩ := mmrSelect_succ norms rel lam sel rem fuel hne
      rw [heq] at hx
      rcases mmrSelect_mem fuel norms rel lam (sel ++ [b]) (removeFirst rem b) x hx with h | h
      · rcases List.mem_append.mp h with h2 | h2
        · exact Or.inl h2
        · rw [List.mem_singleton] at h2
          subst h2
          exact Or.inr hb
      · exact Or.inr (mem_of_mem_removeFirst h)

theorem mmrSelect_nodup : ∀ (fuel : Nat) (norms : List (List ℚ)) (rel : List ℚ) (lam : ℚ)
    (sel rem : List Nat), sel.Nodup → rem.Nodup → (∀ x ∈ sel, x ∉ rem) →
    (mmrSelect norms rel lam sel rem fuel).Nodup
  | 0, _, _, _, sel, rem, hsel, _, _ => by simpa [mmrSelect] using hsel
  | fuel + 1, norms, rel, lam, sel, rem, hsel, hrem, hdisj => by
    by_cases hne : rem = []
    · subst hne
      simpa only [mmrSelect, List.map_nil, maxBySnd] using hsel
    · obtain ⟨b, hb, -, heq⟩ := mmrSelect_succ norms rel lam sel rem fuel hne
      rw [heq]
      refine mmrSelect_nodup fuel norms rel lam (sel ++ [b]) (removeFirst rem b) ?_ ?_ ?_
      · refine List.Nodup.append hsel (List.nodup_singleton b) ?_
        intro a ha hab
        rw [List.mem_singleton] at hab
        subst hab
        exact hdisj a ha hb
      · exact nodup_removeFirst b hrem
      · intro x hx hxr
        rcases List.mem_append.mp hx with h2 | h2
        · exact hdisj x h2 (mem_of_mem_removeFirst hxr)
        · rw [List.mem_singleton] at h2
          subst h2
          exact not_mem_removeFirst_self hrem hxr

theorem nth_isSome {l : List Candidate} : ∀ {i : Nat}, i < l.length → (nth l i).isSome := by
  induction l with
  | nil => intro i h; simp at h
  | cons c cs ih =>
    intro i h
    cases i with
    | zero => exact rfl
    | succ i =>
      refine ih ?_
      rw [List.length_cons] at h
      omega

theorem nth_mem : ∀ {l : List Candidate} {i : Nat} {c : Candidate}, nth l i = some c → c ∈ l
  | c0 :: cs, 0, c, h => by
    injection h with h
    rw [← h]
    exact List.mem_cons_self _ _
  | c0 :: cs, i + 1, c, h => List.mem_cons_of_mem _ (nth_mem h)

theorem nth_inj : ∀ {l : List Candidate}, l.Nodup → ∀ {i j : Nat} {c : Candidate},
    nth l i = some c → nth l j = some c → i = j
  | c0 :: cs, h, 0, 0, c, _, _ => rfl
  | c0 :: cs, h, 0, j + 1, c, h1, h2 => by
    injection h1 with h1
    rw [← h1] at h2
    have h3 : nth cs j = some c0 := h2
    exact absurd (nth_mem h3) (List.nodup_cons.mp h).1
  | c0 :: cs, h, i + 1, 0, c, h1, h2 => by
    injection h2 with h2
    rw [← h2] at h1
    have h3 : nth cs i = some c0 := h1
    exact absurd (nth_mem h3) (List.nodup_cons.mp h).1
  | c0 :: cs, h, i + 1, j + 1, c, h1, h2 =>
    congrArg Nat.succ (nth_inj (List.nodup_cons.mp h).2 h1 h2)

theorem nodup_filterMap_nth : ∀ (idxs : List Nat) (cr : List Candidate),
    cr.Nodup → idxs.Nodup → (idxs.filterMap (fun i => nth cr i)).Nodup
  | [], _, _, _ => List.nodup_nil
  | i :: rest, cr, hcr, hidx => by
    rw [List.filterMap_cons]
    rcases List.nodup_cons.mp hidx with ⟨hi, hrest⟩
    cases hni : nth cr i with
    | none => exact nodup_filterMap_nth rest cr hcr hrest
    | some c =>
      refine List.nodup_cons.mpr ⟨?_, nodup_filterMap_nth rest cr hcr hrest⟩
      intro hc
      obtain ⟨j, hj, hnj⟩ := List.mem_filterMap.mp hc
      exact hi (nth_inj hcr hnj hni ▸ hj)

theorem mmrIndices_spec (q : List ℚ) (cv : List (List ℚ)) (n : Nat) (lam : ℚ) (k : ℤ)
    (hn : 0 < n) (hcv : cv.length = n) :
    (mmrIndices q cv n lam k).length = 1 + (min (k - 1) ((n - 1 : Nat) : ℤ)).toNat ∧
    (mmrIndices q cv n lam k).Nodup ∧
    (∀ i ∈ mmrIndices q cv n lam k, i < n) := by
  have hrel : ((cv.map normalize).map
      (fun v => dot v (normalize q))).length = n := by
    rw [List.length_map, List.length_map, hcv]
  have hrelne : (cv.map normalize).map (fun v => dot v (normalize q)) ≠ [] := by
    intro he
    rw [he] at hrel
    simp at hrel
    omega
  have hfirst : argmax ((cv.map normalize).map (fun v => dot v (normalize q))) < n := by
    have h2 := argmax_lt hrelne
    rwa [hrel] at h2
  have hfmem : argmax ((cv.map normalize).map (fun v => dot v (normalize q)))
      ∈ List.range n := List.mem_range.mpr hfirst
  have hremlen : (removeFirst (List.range n)
      (argmax ((cv.map normalize).map (fun v => dot v (normalize q))))).length = n - 1 := by
    have h2 := length_removeFirst hfmem
    rw [List.length_range] at h2
    omega
  refine ⟨?_, ?_, ?_⟩
  · simp only [mmrIndices]
    rw [mmrSelect_length _ _ _ _ _ _ (by rw [hremlen]; omega)]
    rw [List.length_singleton, hremlen]
  · simp only [mmrIndices]
    refine mmrSelect_nodup _ _ _ _ _ _ (List.nodup_singleton _)
      (nodup_removeFirst _ (List.nodup_range n)) ?_
    intro x hx
    rw [List.mem_singleton] at hx
    subst hx
    exact not_mem_removeFirst_self (List.nodup_range n)
  · simp only [mmrIndices]
    intro i hi
    rcases mmrSelect_mem _ _ _ _ _ _ i hi with h | h
    · rw [List.mem_singleton] at h
      subst h
      exact hfirst
    · exact List.mem_range.mp (mem_of_mem_removeFirst h)

theorem foldl_max_max : ∀ (l : List ℚ) (a b : ℚ), l.foldl max (max a b) = max a (l.foldl max b)
  | [], a, b => rfl
  | c :: l, a, b => by
    rw [List.foldl_cons, List.foldl_cons, max_assoc, foldl_max_max l a (max b c)]

theorem maxSim_eq_clamped (norms : List (List ℚ)) (sel : List Nat) (i : Nat) :
    maxSim norms sel i = max 0 (maxSimSpec norms sel i) := by
  rw [maxSim, maxSimSpec]
  rw [show sel.foldl (fun m j => max m (dot (norms.getD i []) (norms.getD j []))) 0
      = (sel.map (fun j => dot (norms.getD i []) (norms.getD j []))).foldl max 0 from
    (List.foldl_map _ _ _ _).symm]
  cases hm : sel.map (fun j => dot (norms.getD i []) (norms.getD j [])) with
  | nil => simp
  | cons x xs =>
    rw [List.foldl_cons, show ((max 0 x : ℚ)) = max 0 x from rfl]
    exact foldl_max_max xs 0 x

/-! ### Claim theorems: MMR -/

/-- C2 amended: at every selection step the quantity `max_sim(i)` equals
`max(0, max over already-selected j of dot(candidate_i, candidate_j))` —
the accumulator starts at 0, so the maximum is CLAMPED below at 0 and can
never be negative — and the loop selects a remaining candidate whose score
`lambda * relevance(i) - (1 - lambda) * max_sim(i)` (with the clamped
`max_sim`) is maximal among the remaining candidates. -/
theorem mmr_max_sim_clamped (norms : List (List ℚ)) (rel : List ℚ) (lam : ℚ)
    (sel rem : List Nat) (fuel : Nat) (i : Nat) (hrem : rem ≠ []) :
    maxSim norms sel i = max 0 (maxSimSpec norms sel i) ∧
    ∃ b ∈ rem,
      (∀ j ∈ rem, lam * rel.getD j 0 - (1 - lam) * maxSim norms sel j
        ≤ lam * rel.getD b 0 - (1 - lam) * maxSim norms sel b) ∧
      mmrSelect norms rel lam sel rem (fuel + 1)
        = mmrSelect norms rel lam (sel ++ [b]) (removeFirst rem b) fuel :=
  ⟨maxSim_eq_clamped norms sel i, mmrSelect_succ norms rel lam sel rem fuel hrem⟩

/-- Witness for `mmr_max_sim_clamped` on a one-candidate state. -/
theorem mmr_max_sim_clamped_witness :
    (([0] : List Nat) ≠ []) ∧
    (maxSim [[(1:ℚ)]] [] 0 = max 0 (maxSimSpec [[(1:ℚ)]] [] 0) ∧
      ∃ b ∈ ([0] : List Nat),
        (∀ j ∈ ([0] : List Nat),
          (1/2 : ℚ) * [(1:ℚ)].getD j 0 - (1 - 1/2) * maxSim [[(1:ℚ)]] [] j
            ≤ (1/2 : ℚ) * [(1:ℚ)].getD b 0 - (1 - 1/2) * maxSim [[(1:ℚ)]] [] b) ∧
        mmrSelect [[(1:ℚ)]] [(1:ℚ)] (1/2) [] [0] (0 + 1)
          = mmrSelect [[(1:ℚ)]] [(1:ℚ)] (1/2) ([] ++ [b]) (removeFirst [0] b) 0) :=
  ⟨List.cons_ne_nil 0 [], mmr_max_sim_clamped [[(1:ℚ)]] [(1:ℚ)] (1/2) [] [0] 0 0
    (List.cons_ne_nil 0 [])⟩

/-- C2 counterexample: with unit vectors v0 = (1,0), v1 = (-1,0) and query
(1,0) the first selection is index 0 (argmax of the relevance scores); at
the next step the only dot product between candidate 1 and the selected
set is dot(v1, v0) = -1 < 0, so the claim requires max_sim(1) = -1, but
the code's accumulator starts at 0 and produces max_sim(1) = 0: the
similarity IS clamped, and when every dot product is negative max_sim is 0,
not negative. -/
theorem mmr_max_sim_not_plain_max :
    argmax (([[(1:ℚ), 0], [-1, 0]].map normalize).map
      (fun v => dot v (normalize [1, 0]))) = 0 ∧
    maxSimSpec ([[(1:ℚ), 0], [-1, 0]].map normalize) [0] 1 = -1 ∧
    maxSim ([[(1:ℚ), 0], [-1, 0]].map normalize) [0] 1 = 0 ∧
    (0 : ℚ) ≠ -1 := by
  refine ⟨?_, ?_, ?_, by norm_num⟩ <;>
    norm_num [argmax, argmaxAux, maxSim, maxSimSpec, normalize, l2norm, ratSqrt, dot,
      show isqrt 1 = 1 from by decide]

/-- C3 counterexample: with one candidate and K = 0 the code still returns
one result — the seed pick happens before the loop bound `min(k-1, ...)`
is consulted — whereas the claim requires length `min(0, 1) = 0`. -/
theorem mmr_k_zero_returns_one :
    (mmr_rerank [1] [[1]] [⟨1, 1, "A", []⟩] (1/2) 0).length = 1 ∧ (1 : Nat) ≠ min 0 1 := by
  constructor
  · norm_num [mmr_rerank, mmrIndices, mmrSelect, maxSim, maxBySnd, argmax, argmaxAux,
      removeFirst, normalize, l2norm, ratSqrt, dot, List.range, min_def, nth,
      List.filterMap_cons, List.filterMap_nil, show isqrt 1 = 1 from by decide]
  · decide

/-- C3 amended: on a candidate list with matching vectors, the output
length is `min(max(K, 1), number of candidates)`: it equals
`min(K, |candidates|)` for every K ≥ 1, but for K ≤ 0 the unconditional
first pick still emits one candidate whenever any exist. -/
theorem mmr_output_length (q : List ℚ) (cv : List (List ℚ)) (cr : List Candidate)
    (lam : ℚ) (k : ℤ) (hlen : cv.length = cr.length) :
    (mmr_rerank q cv cr lam k).length = min (max k.toNat 1) cr.length := by
  rw [mmr_rerank]
  by_cases h : cr.length = 0
  · rw [if_pos h, h]
    simp
  · rw [if_neg h]
    have hn : 0 < cr.length := Nat.pos_of_ne_zero h
    obtain ⟨hlen2, -, hmem⟩ := mmrIndices_spec q cv cr.length lam k hn hlen
    rw [length_filterMap_of_isSome _ _ (fun i hi => nth_isSome (hmem i hi)), hlen2]
    omega

/-- Witness for `mmr_output_length` with K = 0 on one candidate. -/
theorem mmr_output_length_witness :
    ([[(1:ℚ)]].length = ([⟨1, 1, "A", []⟩] : List Candidate).length) ∧
    (mmr_rerank [1] [[1]] [⟨1, 1, "A", []⟩] (1/2) 0).length
      = min (max (0:ℤ).toNat 1) ([⟨1, 1, "A", []⟩] : List Candidate).length :=
  ⟨rfl, mmr_output_length [1] [[1]] [⟨1, 1, "A", []⟩] (1/2) 0 rfl⟩

/-- C5: on a zero-norm query vector `mmr_rerank` performs no guard and
raises no error — the division by the zero norm happens silently (NaN in
NumPy, 0 in this rational model) and a normal ranking is returned instead
of failing with InvalidArgument. -/
theorem mmr_zero_norm_no_error :
    mmr_rerank [0, 0] [[1, 0]] [⟨7, 9/10, "p", []⟩] (1/2) 10 = [⟨7, 9/10, "p", []⟩] := by
  norm_num [mmr_rerank, mmrIndices, mmrSelect, maxSim, maxBySnd, argmax, argmaxAux,
    removeFirst, normalize, l2norm, ratSqrt, dot, List.range, min_def, nth,
    List.filterMap_cons, List.filterMap_nil,
    show isqrt 0 = 0 from by decide, show isqrt 1 = 1 from by decide]

/-- C9: the indices selected by `mmr_rerank` are pairwise distinct and all
within the input's range; the returned sequence is exactly the input
candidates read off at those indices (the input itself is left untouched —
the embedding is purely functional, as is the Python code, which only
builds a fresh output list); in particular if the input candidates are
pairwise distinct so is the output. -/
theorem mmr_selection_distinct_in_range (q : List ℚ) (cv : List (List ℚ))
    (cr : List Candidate) (lam : ℚ) (k : ℤ) (hne : cr ≠ [])
    (hlen : cv.length = cr.length) :
    (mmrIndices q cv cr.length lam k).Nodup ∧
    (∀ i ∈ mmrIndices q cv cr.length lam k, i < cr.length) ∧
    mmr_rerank q cv cr lam k = (mmrIndices q cv cr.length lam k).filterMap
      (fun i => nth cr i) ∧
    (cr.Nodup → (mmr_rerank q cv cr lam k).Nodup) := by
  have hn : 0 < cr.length := List.length_pos.mpr hne
  obtain ⟨-, hnd, hmem⟩ := mmrIndices_spec q cv cr.length lam k hn hlen
  have heq : mmr_rerank q cv cr lam k = (mmrIndices q cv cr.length lam k).filterMap
      (fun i => nth cr i) := by
    rw [mmr_rerank, if_neg (by omega)]
  exact ⟨hnd, hmem, heq, fun hcr => heq ▸ nodup_filterMap_nth _ _ hcr hnd⟩

/-- Witness for `mmr_selection_distinct_in_range` on two candidates. -/
theorem mmr_selection_distinct_in_range_witness :
    (([⟨1, 1, "A", []⟩, ⟨2, 1, "B", []⟩] : List Candidate) ≠ []) ∧
    ([[(1:ℚ), 0], [0, 1]].length = ([⟨1, 1, "A", []⟩, ⟨2, 1, "B", []⟩] : List Candidate).length) ∧
    ((mmrIndices [1, 0] [[(1:ℚ), 0], [0, 1]] 2 (1/2) 2).Nodup ∧
      (∀ i ∈ mmrIndices [1, 0] [[(1:ℚ), 0], [0, 1]] 2 (1/2) 2, i < 2) ∧
      mmr_rerank [1, 0] [[(1:ℚ), 0], [0, 1]] [⟨1, 1, "A", []⟩, ⟨2, 1, "B", []⟩] (1/2) 2
        = (mmrIndices [1, 0] [[(1:ℚ), 0], [0, 1]] 2 (1/2) 2).filterMap
            (fun i => nth [⟨1, 1, "A", []⟩, ⟨2, 1, "B", []⟩] i) ∧
      (([⟨1, 1, "A", []⟩, ⟨2, 1, "B", []⟩] : List Candidate).Nodup →
        (mmr_rerank [1, 0] [[(1:ℚ), 0], [0, 1]] [⟨1, 1, "A", []⟩, ⟨2, 1, "B", []⟩]
          (1/2) 2).Nodup)) :=
  ⟨by simp, rfl, mmr_selection_distinct_in_range [1, 0] [[(1:ℚ), 0], [0, 1]]
    [⟨1, 1, "A", []⟩, ⟨2, 1, "B", []⟩] (1/2) 2 (by simp) rfl⟩

/-! ### Claim theorems: exact_topk and recall -/

/-- C6: with two identical vectors (equal cosine similarity to the query)
and k = 2 the code returns index 1 BEFORE index 0: it reverses an
ascending argsort, so equal-similarity ties come out highest-index-first
(NumPy's tie order, here modelled as a stable sort, matches this on such
inputs), while the claim requires the lower index to precede. -/
theorem exact_topk_tie_highest_index_first :
    exact_topk [1, 0] [[1, 0], [1, 0]] 2 = [(1, 1), (0, 1)] ∧
    ([(1, 1), (0, 1)] : List (Nat × ℚ)) ≠ [(0, 1), (1, 1)] := by
  constructor
  · norm_num [exact_topk, argsort, normalize, l2norm, ratSqrt, dot, List.range,
      List.insertionSort, List.orderedInsert, show isqrt 1 = 1 from by decide]
  · intro h
    simp at h

theorem interCount_erase : ∀ (xs : List ℤ) (b : List ℤ) (x : ℤ), x ∉ xs →
    interCount xs (b.erase x) = interCount xs b
  | [], _, _, _ => rfl
  | y :: ys, b, x, h => by
    have hyx : y ≠ x := fun he => h (he ▸ List.mem_cons_self y ys)
    simp only [interCount]
    rw [interCount_erase ys b x (fun hm => h (List.mem_cons_of_mem _ hm))]
    congr 1
    by_cases hyb : y ∈ b
    · rw [if_pos hyb, if_pos ((List.mem_erase_of_ne hyx).mpr hyb)]
    · rw [if_neg hyb, if_neg (fun hm => hyb ((List.mem_erase_of_ne hyx).mp hm))]

theorem interCount_le : ∀ {a : List ℤ}, a.Nodup → ∀ (b : List ℤ), interCount a b ≤ b.length
  | [], _, b => Nat.zero_le _
  | x :: xs, h, b => by
    rcases List.nodup_cons.mp h with ⟨hx, hxs⟩
    simp only [interCount]
    by_cases hxb : x ∈ b
    · rw [if_pos hxb]
      have h1 := interCount_le hxs (b.erase x)
      rw [interCount_erase xs b x hx] at h1
      have h2 : (b.erase x).length = b.length - 1 := List.length_erase_of_mem hxb
      have h3 : 0 < b.length := List.length_pos.mpr (List.ne_nil_of_mem hxb)
      omega
    · rw [if_neg hxb]
      have h1 := interCount_le hxs b
      omega

/-- C10 counterexample: with predicted = [1,2], ground truth = [1,2] and
k = -1 ≤ 0, Python's slice `[:-1]` keeps [1] (it is NOT empty), the sets
intersect, and the function returns 1.0, not 0.0 as the claim requires for
k ≤ 0. -/
theorem recall_negative_k_nonzero :
    calculate_recall_at_k [1, 2] [1, 2] (-1) = 1 ∧ ((-1 : ℤ) ≤ 0) ∧ (1 : ℚ) ≠ 0 := by
  refine ⟨?_, by norm_num, by norm_num⟩
  norm_num [calculate_recall_at_k, pySlice, distinct, interCount]

/-- C10 amended: `calculate_recall_at_k` returns exactly 0.0 when the
ground-truth slice is empty — in particular when the ground-truth list is
empty or k = 0; for NEGATIVE k the Python slice `[:k]` instead drops the
last |k| elements and need not be empty — and the returned value always
lies in [0, 1]. -/
theorem recall_guard_and_bounds (predicted ground_truth : List ℤ) (k : ℤ) :
    ((ground_truth = [] ∨ k = 0) → calculate_recall_at_k predicted ground_truth k = 0) ∧
    0 ≤ calculate_recall_at_k predicted ground_truth k ∧
    calculate_recall_at_k predicted ground_truth k ≤ 1 := by
  refine ⟨?_, ?_, ?_⟩
  · rintro (rfl | rfl)
    · simp [calculate_recall_at_k, pySlice, distinct]
    · simp [calculate_recall_at_k, pySlice, distinct]
  · simp only [calculate_recall_at_k]
    split_ifs with h
    · exact le_refl 0
    · positivity
  · simp only [calculate_recall_at_k]
    split_ifs with h
    · norm_num
    · have hpos : 0 < (distinct (pySlice ground_truth k)).length := Nat.pos_of_ne_zero h
      rw [div_le_one (by exact_mod_cast hpos)]
      exact_mod_cast interCount_le (nodup_distinct _) (distinct (pySlice ground_truth k))

/-- Witness for `recall_guard_and_bounds` at an empty ground truth. -/
theorem recall_guard_and_bounds_witness :
    ((([] : List ℤ) = [] ∨ (5:ℤ) = 0) → calculate_recall_at_k [1] [] 5 = 0) ∧
    0 ≤ calculate_recall_at_k [1] [] 5 ∧ calculate_recall_at_k [1] [] 5 ≤ 1 :=
  recall_guard_and_bounds [1] [] 5

end DsDojo

namespace DsDojo

/-! ### Validation of the embedding against the concrete scenarios of the
specification (two end-to-end evaluations, not tied to any single claim). -/

/-- Spec §8 concrete fusion scenario: dense `[(1, 0.9), (2, 0.5)]`, sparse
`[(2, 0.8), (3, 0.6)]`, weight 0.5 gives fused scores id1 = 0.45,
id2 = 0.65, id3 = 0.30 and ranking `[2, 1, 3]`. -/
theorem fusion_spec_scenario :
    (search_hybrid_fusion
      [⟨1, 9/10, "d1", []⟩, ⟨2, 1/2, "d2", []⟩]
      [⟨2, 4/5, "s2", []⟩, ⟨3, 3/5, "s3", []⟩] (1/2) 10).map (fun r => (r.id, r.score))
    = [(2, 13/20), (1, 9/20), (3, 3/10)] := by
  norm_num [search_hybrid_fusion, sortedIds, allIds, fusedScore, scoreTable, resultMap,
    lookupLast, distinct, List.insertionSort, List.orderedInsert, List.filterMap]

/-- Spec §8 concrete MMR scenario: A closest to the query, B near-identical
to A, C orthogonal to both; with lambda = 0.5 and k = 2 the second pick is
C, not B. -/
theorem mmr_spec_scenario :
    (mmr_rerank [1,0,0] [[4/5,3/5,0],[3/5,4/5,0],[0,0,1]]
      [⟨1, 1, "A", []⟩, ⟨2, 1, "B", []⟩, ⟨3, 1, "C", []⟩] (1/2) 2).map (·.payload)
    = ["A", "C"] := by
  norm_num [mmr_rerank, mmrIndices, mmrSelect, maxSim, maxBySnd, argmax, argmaxAux,
    removeFirst, normalize, l2norm, ratSqrt, dot, List.range, min_def,
    nth, List.filterMap_cons, List.filterMap_nil,
    show isqrt 1 = 1 from by decide]

end DsDojo
